import Mathlib

/-!
Shallow embedding of the Minesweeper inference engine from
src/minesweeper/minesweeper.py, together with proofs about the claims of
the specification.

Python sets are modelled as `Finset`; Python `int` counts as `Int`
(they can go negative under `Sentence.mark_mine`); the unordered
iteration over a Python set is fixed to the canonical lexicographic
order of the coordinates (`sortCells`); `random.randrange` and
`random.choice` draws are modelled as an explicit stream `Nat → Cell`
consumed by a fuel-bounded loop, with `none` standing for a loop that
has not exited within the given fuel.
-/

/-- A board coordinate `(row, column)`, the key type of every set in the
program. -/
abbrev Cell := Nat × Nat

/-- `class Sentence`: a set of board cells and a count of how many of
those cells are mines.  Structural equality (`__eq__` compares the cell
set and the count) is definitional equality of this structure. -/
structure Sentence where
  cells : Finset Cell
  count : Int
deriving DecidableEq

instance : Inhabited Sentence := ⟨⟨∅, 0⟩⟩

/-- `Sentence.known_mines`: the full cell set iff
`count != 0 and count == len(cells)`, otherwise `None`. -/
def Sentence.known_mines (s : Sentence) : Option (Finset Cell) :=
  if s.count ≠ 0 ∧ s.count = (s.cells.card : Int) then some s.cells else none

/-- `Sentence.known_safes`: the full cell set iff
`count == 0 and len(cells) != 0`, otherwise `None`. -/
def Sentence.known_safes (s : Sentence) : Option (Finset Cell) :=
  if s.count = 0 ∧ s.cells.card ≠ 0 then some s.cells else none

/-- `Sentence.mark_mine`: if the cell is present, remove it and
decrement the count (the Python `int` count may become negative). -/
def Sentence.mark_mine (s : Sentence) (c : Cell) : Sentence :=
  if c ∈ s.cells then ⟨s.cells.erase c, s.count - 1⟩ else s

/-- `Sentence.mark_safe`: if the cell is present, remove it and leave
the count unchanged. -/
def Sentence.mark_safe (s : Sentence) (c : Cell) : Sentence :=
  if c ∈ s.cells then ⟨s.cells.erase c, s.count⟩ else s

/-- The mutable state of `class MinesweeperAI`. -/
structure AIState where
  height : Nat
  width : Nat
  moves_made : Finset Cell
  safes : Finset Cell
  mines : Finset Cell
  knowledge : List Sentence
deriving DecidableEq

/-- A `for` loop over `l` whose body may abort; `none` propagates fuel
exhaustion out of the nested recursive calls of the body. -/
def foldOpt {α : Type} (f : AIState → α → Option AIState) : AIState → List α → Option AIState
  | st, [] => some st
  | st, a :: l =>
    match f st a with
    | none => none
    | some st2 => foldOpt f st2 l

/-- Lexicographic order on cells, used to fix a traversal order for the
Python sets. -/
def cellLe (a b : Cell) : Prop := a.1 < b.1 ∨ (a.1 = b.1 ∧ a.2 ≤ b.2)

instance : DecidableRel cellLe := fun a b => by unfold cellLe; infer_instance

instance : IsTrans Cell cellLe := ⟨by intro a b c hab hbc; unfold cellLe at hab hbc ⊢; omega⟩

instance : IsAntisymm Cell cellLe := by
  refine ⟨fun a b hab hba => ?_⟩
  unfold cellLe at hab hba
  obtain ⟨x, y⟩ := a
  obtain ⟨z, w⟩ := b
  simp only [Prod.mk.injEq]
  omega

instance : IsTotal Cell cellLe := ⟨by intro a b; unfold cellLe; omega⟩

/-- Fixed traversal order of a Python set of cells: ascending
lexicographically (insertion sort is well defined on the permutation
classes underlying a `Finset`). -/
def sortCells (s : Finset Cell) : List Cell :=
  Quot.liftOn s.val (List.insertionSort cellLe) fun a b h =>
    List.eq_of_perm_of_sorted
      ((List.perm_insertionSort _ a).trans ((h : a.Perm b).trans (List.perm_insertionSort _ b).symm))
      (List.sorted_insertionSort _ a) (List.sorted_insertionSort _ b)

/-- `MinesweeperAI.mark_mine`: add the cell to `mines` and apply
`Sentence.mark_mine` to every sentence in the knowledge base. -/
def aiMarkMine (st : AIState) (c : Cell) : AIState :=
  { st with mines := insert c st.mines,
            knowledge := st.knowledge.map fun s => s.mark_mine c }

/-- `MinesweeperAI.mark_safe`: add the cell to `safes` and apply
`Sentence.mark_safe` to every sentence in the knowledge base. -/
def aiMarkSafe (st : AIState) (c : Cell) : AIState :=
  { st with safes := insert c st.safes,
            knowledge := st.knowledge.map fun s => s.mark_safe c }

/-- The nested closure `update_kb` of `MinesweeperAI.add_knowledge`.

The Python closure reads `known_safes()`/`known_mines()` of its argument
once on entry (and copies the revealed cell set before looping), so the
argument is passed by value here.  The inner `for sentence in
self.knowledge` loop walks the live list by position while recursive
calls mutate entries in place, hence the index-based loop re-reading
`knowledge` at each step; `update_kb` never appends to or removes from
`knowledge`, so the length captured by `List.range` is the live length
throughout.  The recursion guard compares `known_mines()` (resp.
`known_safes()`) before and after the mark; the Python comparison happens
to read the pre-value through a mutated alias, but the two non-`None`
results can never be distinct sets (the count/size conditions are
mutually exclusive across one removal), so comparing snapshot values is
behaviourally identical.  The first argument is recursion fuel; each
recursive call is triggered by the strict removal of one cell. -/
def updateKb : Nat → AIState → Sentence → Option AIState
  | 0, _, _ => none
  | Nat.succ fuel, st, s =>
    match s.known_safes with
    | some ns =>
      let st1 := { st with safes := st.safes ∪ ns }
      foldOpt (fun acc c =>
          foldOpt (fun acc2 idx =>
              let sent := acc2.knowledge.getD idx default
              let sent2 := sent.mark_safe c
              let acc3 := { acc2 with knowledge := acc2.knowledge.set idx sent2 }
              if sent.known_mines ≠ sent2.known_mines then updateKb fuel acc3 sent2
              else some acc3)
            acc (List.range acc.knowledge.length))
        st1 (sortCells ns)
    | none =>
      match s.known_mines with
      | some nm =>
        let st1 := { st with mines := st.mines ∪ nm }
        foldOpt (fun acc c =>
            foldOpt (fun acc2 idx =>
                let sent := acc2.knowledge.getD idx default
                let sent2 := sent.mark_mine c
                let acc3 := { acc2 with knowledge := acc2.knowledge.set idx sent2 }
                if sent.known_safes ≠ sent2.known_safes then updateKb fuel acc3 sent2
                else some acc3)
              acc (List.range acc.knowledge.length))
          st1 (sortCells nm)
      | none => some st

/-- One iteration of the safe-marking inner loop of `update_kb`
(named so that the loop body can be reasoned about; definitionally the
lambda appearing inside `updateKb`). -/
def safeIdxStep (fuel : Nat) (c : Cell) (acc2 : AIState) (idx : Nat) : Option AIState :=
  let sent := acc2.knowledge.getD idx default
  let sent2 := sent.mark_safe c
  let acc3 := { acc2 with knowledge := acc2.knowledge.set idx sent2 }
  if sent.known_mines ≠ sent2.known_mines then updateKb fuel acc3 sent2
  else some acc3

/-- The safe-marking pass of `update_kb` for one revealed cell. -/
def safeCellPass (fuel : Nat) (acc : AIState) (c : Cell) : Option AIState :=
  foldOpt (safeIdxStep fuel c) acc (List.range acc.knowledge.length)

/-- One iteration of the mine-marking inner loop of `update_kb`. -/
def mineIdxStep (fuel : Nat) (c : Cell) (acc2 : AIState) (idx : Nat) : Option AIState :=
  let sent := acc2.knowledge.getD idx default
  let sent2 := sent.mark_mine c
  let acc3 := { acc2 with knowledge := acc2.knowledge.set idx sent2 }
  if sent.known_safes ≠ sent2.known_safes then updateKb fuel acc3 sent2
  else some acc3

/-- The mine-marking pass of `update_kb` for one revealed cell. -/
def mineCellPass (fuel : Nat) (acc : AIState) (c : Cell) : Option AIState :=
  foldOpt (mineIdxStep fuel c) acc (List.range acc.knowledge.length)

/-- One iteration of the nested closure `subsets` of `add_knowledge`,
for the knowledge entry at position `idx`, with the seed sentence (the
`subset_sentence` argument, an object living in `knowledge`) read back
from position `subIdx` so that in-place mutation by earlier iterations
is observed, as in the Python original.

The Python guard `resulting_sentence.known_safes or
resulting_sentence.known_mines` references the two bound methods without
calling them, and a bound method is always truthy, so the guard is
constantly true: every derived sentence is handed to `update_kb` and the
`else` branch (recursive subset derivation followed by conditional
insertion into `knowledge`) is unreachable and therefore has no
counterpart here.  Consequently `subsets` never changes the length of
`knowledge`. -/
def subsetsStep (fuel : Nat) (subIdx : Nat) (st : AIState) (idx : Nat) : Option AIState :=
  let subS := st.knowledge.getD subIdx default
  let sent := st.knowledge.getD idx default
  if sent.cells ⊆ subS.cells ∧ subS.cells \ sent.cells ≠ ∅ then
    updateKb fuel st ⟨subS.cells \ sent.cells, subS.count - sent.count⟩
  else if subS.cells ⊆ sent.cells ∧ sent.cells \ subS.cells ≠ ∅ then
    updateKb fuel st ⟨sent.cells \ subS.cells, sent.count - subS.count⟩
  else some st

/-- The closure `subsets` of `add_knowledge`: one pass over (a copy of)
the knowledge list, comparing each entry with the seed sentence at
`subIdx`. -/
def subsetsPass (fuel : Nat) (st : AIState) (subIdx : Nat) : Option AIState :=
  foldOpt (subsetsStep fuel subIdx) st (List.range st.knowledge.length)

/-- The closure `find_neighbors` of `add_knowledge`: row above (left to
right), row below, left neighbor, right neighbor, each clipped to the
board bounds. -/
def findNeighbors (height width : Nat) (c : Cell) : List Cell :=
  (if 1 ≤ c.1 then
     (if 1 ≤ c.2 then [(c.1 - 1, c.2 - 1)] else []) ++
     (if c.2 < width then [(c.1 - 1, c.2)] else []) ++
     (if c.2 + 1 < width then [(c.1 - 1, c.2 + 1)] else [])
   else []) ++
  (if c.1 + 1 < height then
     (if 1 ≤ c.2 then [(c.1 + 1, c.2 - 1)] else []) ++
     (if c.2 < width then [(c.1 + 1, c.2)] else []) ++
     (if c.2 + 1 < width then [(c.1 + 1, c.2 + 1)] else [])
   else []) ++
  (if 1 ≤ c.2 then [(c.1, c.2 - 1)] else []) ++
  (if c.2 + 1 < width then [(c.1, c.2 + 1)] else [])

/-- Step 1 of `add_knowledge`: `self.moves_made.add(cell)`. -/
def observeMove (st : AIState) (c : Cell) : AIState :=
  { st with moves_made := insert c st.moves_made }

/-- Step 3 of `add_knowledge`: the sentence built from the neighbors of
the cell, with neighbors already known safe filtered out. -/
def newSentence (st : AIState) (c : Cell) (n : Int) : Sentence :=
  ⟨((findNeighbors st.height st.width c).filter fun x => decide (x ∉ st.safes)).toFinset, n⟩

/-- The unconditional `self.knowledge.append(new_sentence)` of
`add_knowledge` (the source performs no duplicate check here). -/
def insertSentence (st : AIState) (s : Sentence) : AIState :=
  { st with knowledge := st.knowledge ++ [s] }

/-- The final sweep of `add_knowledge`: union the `known_safes()` of
every sentence into `safes`. -/
def sweepSafes (st : AIState) : AIState :=
  { st with safes := st.knowledge.foldl (fun acc s =>
      match s.known_safes with
      | some ks => acc ∪ ks
      | none => acc) st.safes }

/-- The clean-up of `add_knowledge`: drop sentences whose cell set is
empty. -/
def pruneKnowledge (st : AIState) : AIState :=
  { st with knowledge := st.knowledge.filter fun s => decide (s.cells ≠ ∅) }

/-- `MinesweeperAI.add_knowledge(cell, count)`: record the move, mark the
cell safe, append the neighbor sentence, run `update_kb` seeded from it,
run `subsets` seeded from it (by its position, the last slot), sweep the
remaining `known_safes`, and prune emptied sentences.  `fuel` bounds the
recursion depth of `update_kb`. -/
def addKnowledge (fuel : Nat) (st : AIState) (c : Cell) (n : Int) : Option AIState :=
  let st2 := aiMarkSafe (observeMove st c) c
  let newS := newSentence st2 c n
  let st3 := insertSentence st2 newS
  match updateKb fuel st3 newS with
  | none => none
  | some st4 =>
    match subsetsPass fuel st4 (st3.knowledge.length - 1) with
    | none => none
    | some st5 => some (pruneKnowledge (sweepSafes st5))

/-- The `while True` loop of `make_safe_move`: keep drawing from `safes`
until the draw is not in `moves_made`. -/
def safeLoop (st : AIState) (s : Nat → Cell) : Nat → Nat → Option Cell
  | 0, _ => none
  | Nat.succ fuel, k => if s k ∉ st.moves_made then some (s k) else safeLoop st s fuel (k + 1)

/-- `MinesweeperAI.make_safe_move`: guarded by
`self.safes and len(self.safes) > len(self.moves_made)`; the stream `s`
models the successive `random.choice(tuple(self.safes))` draws. -/
def makeSafeMove (st : AIState) (s : Nat → Cell) (fuel : Nat) : Option Cell :=
  if st.safes ≠ ∅ ∧ st.moves_made.card < st.safes.card then safeLoop st s fuel 0 else none

/-- The `while True` loop of `make_random_move`: keep drawing random
cells until one is in neither `mines` nor `moves_made`. -/
def randomLoop (st : AIState) (s : Nat → Cell) : Nat → Nat → Option Cell
  | 0, _ => none
  | Nat.succ fuel, k =>
    if s k ∉ st.mines ∧ s k ∉ st.moves_made then some (s k) else randomLoop st s fuel (k + 1)

/-- `MinesweeperAI.make_random_move`: guarded by the literal
`len(self.mines) != 8`; falls through to `None` otherwise. -/
def makeRandomMove (st : AIState) (s : Nat → Cell) (fuel : Nat) : Option Cell :=
  if st.mines.card ≠ 8 then randomLoop st s fuel 0 else none

/-- The mine-placement loop of `Minesweeper.__init__`: while the mine
set has not reached size `m`, draw a coordinate; if it is not yet a mine
(the boolean grid is true exactly on the mine set), add it.  `k` is the
position in the draw stream, `fuel` the number of remaining iterations. -/
def placeRun (m : Nat) (s : Nat → Cell) : Nat → Nat → Finset Cell → Option (Finset Cell)
  | 0, _, _ => none
  | Nat.succ fuel, k, mines =>
    if mines.card = m then some mines
    else if s k ∈ mines then placeRun m s fuel (k + 1) mines
    else placeRun m s fuel (k + 1) (insert (s k) mines)

/-- `Minesweeper.__init__` mine placement from the empty board. -/
def placeMines (m : Nat) (s : Nat → Cell) (fuel : Nat) : Option (Finset Cell) :=
  placeRun m s fuel 0 ∅

/-- The construction loop exits after finitely many draws. -/
def PlacementTerminates (m : Nat) (s : Nat → Cell) : Prop :=
  ∃ fuel r, placeMines m s fuel = some r

/-- A draw stream that enumerates the board in row-major order (and then
cycles), used to witness that placement can terminate. -/
def rowMajor (h w : Nat) (k : Nat) : Cell := ((k / w) % h, k % w)

/-- Total number of cells across all live sentences: the termination
measure of the `update_kb` recursion. -/
def measureA (st : AIState) : Nat := (st.knowledge.map fun s => s.cells.card).sum

/-- The public mutating operations of the agent (`make_safe_move` and
`make_random_move` read but never write the state). -/
inductive AgentOp where
  | addK : Cell → Int → AgentOp
  | markMineOp : Cell → AgentOp
  | markSafeOp : Cell → AgentOp

/-- Apply one public operation; `add_knowledge` is given fuel sufficient
for its recursion (see `addKnowledge_total`). -/
def applyOp (st : AIState) : AgentOp → Option AIState
  | AgentOp.addK c n => addKnowledge (measureA st + 9) st c n
  | AgentOp.markMineOp c => some (aiMarkMine st c)
  | AgentOp.markSafeOp c => some (aiMarkSafe st c)

/-- Run a sequence of public operations. -/
def runOps : AIState → List AgentOp → Option AIState
  | st, [] => some st
  | st, op :: rest =>
    match applyOp st op with
    | none => none
    | some st2 => runOps st2 rest

/-- `MinesweeperAI.__init__`: empty sets, empty knowledge. -/
def initAI (h w : Nat) : AIState := ⟨h, w, ∅, ∅, ∅, []⟩

/-- The constraint invariant of the specification:
`0 ≤ count ≤ |cells|`. -/
def sentenceInv (s : Sentence) : Prop := 0 ≤ s.count ∧ s.count ≤ (s.cells.card : Int)

instance (s : Sentence) : Decidable (sentenceInv s) := by
  unfold sentenceInv; infer_instance

/-! ### Generic lemmas about the loop combinator -/

/-- A transitive relation that every loop-body step establishes is
established by the whole loop. -/
theorem foldOpt_rel {α : Type} (R : AIState → AIState → Prop)
    (hrefl : ∀ a, R a a) (htrans : ∀ a b c, R a b → R b c → R a c)
    (f : AIState → α → Option AIState)
    (hf : ∀ st a st2, f st a = some st2 → R st st2) :
    ∀ (l : List α) (st st2 : AIState), foldOpt f st l = some st2 → R st st2 := by
  intro l
  induction l with
  | nil =>
    intro st st2 h
    simp only [foldOpt] at h
    cases h
    exact hrefl st
  | cons a l ih =>
    intro st st2 h
    simp only [foldOpt] at h
    rcases hfa : f st a with _ | st1
    · rw [hfa] at h; cases h
    · rw [hfa] at h
      exact htrans _ _ _ (hf st a st1 hfa) (ih st1 st2 h)

/-- If an invariant guarantees that each loop-body step succeeds and
re-establishes the invariant, the whole loop succeeds. -/
theorem foldOpt_some {α : Type} (Inv : AIState → Prop) (f : AIState → α → Option AIState)
    (hf : ∀ st a, Inv st → ∃ st2, f st a = some st2 ∧ Inv st2) :
    ∀ (l : List α) (st : AIState), Inv st → ∃ st2, foldOpt f st l = some st2 ∧ Inv st2 := by
  intro l
  induction l with
  | nil => intro st h; exact ⟨st, rfl, h⟩
  | cons a l ih =>
    intro st h
    obtain ⟨st1, hfa, h1⟩ := hf st a h
    obtain ⟨st2, hrest, h2⟩ := ih st1 h1
    refine ⟨st2, ?_, h2⟩
    simp only [foldOpt, hfa]
    exact hrest

/-! ### Lemmas about sentences -/

/-- Marking always yields the erasure of the cell (a no-op when the cell
is absent, since erasing an absent element changes nothing). -/
theorem mark_safe_cells (s : Sentence) (c : Cell) :
    (s.mark_safe c).cells = s.cells.erase c := by
  unfold Sentence.mark_safe
  split
  · rfl
  · exact (Finset.erase_eq_of_not_mem (by assumption)).symm

theorem mark_mine_cells (s : Sentence) (c : Cell) :
    (s.mark_mine c).cells = s.cells.erase c := by
  unfold Sentence.mark_mine
  split
  · rfl
  · exact (Finset.erase_eq_of_not_mem (by assumption)).symm

theorem mark_safe_card_le (s : Sentence) (c : Cell) :
    (s.mark_safe c).cells.card ≤ s.cells.card := by
  rw [mark_safe_cells]; exact Finset.card_erase_le

theorem mark_mine_card_le (s : Sentence) (c : Cell) :
    (s.mark_mine c).cells.card ≤ s.cells.card := by
  rw [mark_mine_cells]; exact Finset.card_erase_le

theorem mark_safe_of_not_mem (s : Sentence) (c : Cell) (h : c ∉ s.cells) :
    s.mark_safe c = s := by
  unfold Sentence.mark_safe; rw [if_neg h]

theorem mark_mine_of_not_mem (s : Sentence) (c : Cell) (h : c ∉ s.cells) :
    s.mark_mine c = s := by
  unfold Sentence.mark_mine; rw [if_neg h]

theorem mark_safe_card_of_mem (s : Sentence) (c : Cell) (h : c ∈ s.cells) :
    (s.mark_safe c).cells.card + 1 = s.cells.card := by
  rw [mark_safe_cells]; exact Finset.card_erase_add_one h

theorem mark_mine_card_of_mem (s : Sentence) (c : Cell) (h : c ∈ s.cells) :
    (s.mark_mine c).cells.card + 1 = s.cells.card := by
  rw [mark_mine_cells]; exact Finset.card_erase_add_one h

/-! ### The termination measure under in-place updates -/

theorem default_sentence_card : (default : Sentence).cells.card = 0 := rfl

theorem sum_map_set_le (l : List Sentence) :
    ∀ (i : Nat) (a : Sentence), a.cells.card ≤ (l.getD i default).cells.card →
      ((l.set i a).map fun s => s.cells.card).sum ≤ (l.map fun s => s.cells.card).sum := by
  induction l with
  | nil => intro i a h; simp
  | cons b l ih =>
    intro i a h
    cases i with
    | zero =>
      simp only [List.getD_cons_zero] at h
      simp only [List.set, List.map, List.sum_cons]
      omega
    | succ i =>
      simp only [List.getD_cons_succ] at h
      simp only [List.set, List.map, List.sum_cons]
      have := ih i a h
      omega

theorem sum_map_set_lt (l : List Sentence) :
    ∀ (i : Nat) (a : Sentence), a.cells.card < (l.getD i default).cells.card →
      ((l.set i a).map fun s => s.cells.card).sum < (l.map fun s => s.cells.card).sum := by
  induction l with
  | nil =>
    intro i a h
    rw [List.getD] at h
    simp only [List.get?_nil, Option.getD_none] at h
    rw [default_sentence_card] at h
    omega
  | cons b l ih =>
    intro i a h
    cases i with
    | zero =>
      simp only [List.getD_cons_zero] at h
      simp only [List.set, List.map, List.sum_cons]
      omega
    | succ i =>
      simp only [List.getD_cons_succ] at h
      simp only [List.set, List.map, List.sum_cons]
      have := ih i a h
      omega

/-! ### The monotone-state relation preserved by the cascade -/

/-- What one `update_kb` cascade can do to the agent state: `safes` and
`mines` only grow, `moves_made` and the board dimensions are untouched,
the knowledge list keeps its length and its total cell count never
increases. -/
def Rmono (st st2 : AIState) : Prop :=
  st.height = st2.height ∧ st.width = st2.width ∧ st.moves_made = st2.moves_made ∧
  st.safes ⊆ st2.safes ∧ st.mines ⊆ st2.mines ∧
  st2.knowledge.length = st.knowledge.length ∧ measureA st2 ≤ measureA st

theorem Rmono_refl : ∀ st, Rmono st st := by
  intro st
  exact ⟨rfl, rfl, rfl, Finset.Subset.refl _, Finset.Subset.refl _, rfl, Nat.le_refl _⟩

theorem Rmono_trans : ∀ a b c, Rmono a b → Rmono b c → Rmono a c := by
  intro a b c h1 h2
  obtain ⟨e1, e2, e3, s1, s2, l1, m1⟩ := h1
  obtain ⟨f1, f2, f3, t1, t2, l2, m2⟩ := h2
  exact ⟨e1.trans f1, e2.trans f2, e3.trans f3, s1.trans t1, s2.trans t2,
    l2.trans l1, m2.trans m1⟩

/-- Replacing the sentence at a position with a marked version of the
sentence read there is an `Rmono` step. -/
theorem Rmono_setKnowledge (st : AIState) (idx : Nat) (a : Sentence)
    (h : a.cells.card ≤ (st.knowledge.getD idx default).cells.card) :
    Rmono st { st with knowledge := st.knowledge.set idx a } := by
  refine ⟨rfl, rfl, rfl, Finset.Subset.refl _, Finset.Subset.refl _, ?_, ?_⟩
  · exact List.length_set ..
  · exact sum_map_set_le _ idx a h

/-! ### Unfolding equations for `updateKb` -/

theorem updateKb_zero (st : AIState) (s : Sentence) : updateKb 0 st s = none := rfl

theorem updateKb_succ (f : Nat) (st : AIState) (s : Sentence) :
    updateKb (f + 1) st s =
      match s.known_safes with
      | some ns => foldOpt (safeCellPass f) { st with safes := st.safes ∪ ns } (sortCells ns)
      | none =>
        match s.known_mines with
        | some nm => foldOpt (mineCellPass f) { st with mines := st.mines ∪ nm } (sortCells nm)
        | none => some st := rfl

theorem updateKb_succ_safes (f : Nat) (st : AIState) (s : Sentence) (ns : Finset Cell)
    (h : s.known_safes = some ns) :
    updateKb (f + 1) st s
      = foldOpt (safeCellPass f) { st with safes := st.safes ∪ ns } (sortCells ns) := by
  rw [updateKb_succ, h]

theorem updateKb_succ_mines (f : Nat) (st : AIState) (s : Sentence) (nm : Finset Cell)
    (h1 : s.known_safes = none) (h2 : s.known_mines = some nm) :
    updateKb (f + 1) st s
      = foldOpt (mineCellPass f) { st with mines := st.mines ∪ nm } (sortCells nm) := by
  rw [updateKb_succ, h1, h2]

theorem updateKb_succ_skip (f : Nat) (st : AIState) (s : Sentence)
    (h1 : s.known_safes = none) (h2 : s.known_mines = none) :
    updateKb (f + 1) st s = some st := by
  rw [updateKb_succ, h1, h2]

/-! ### The cascade is monotone and total given enough fuel -/

/-- Every successful `update_kb` run is an `Rmono` step. -/
theorem updateKb_mono : ∀ (fuel : Nat) (st : AIState) (s : Sentence) (st2 : AIState),
    updateKb fuel st s = some st2 → Rmono st st2 := by
  intro fuel
  induction fuel with
  | zero =>
    intro st s st2 h
    rw [updateKb_zero] at h
    cases h
  | succ f ih =>
    intro st s st2 h
    have hsafeIdx : ∀ (c : Cell) (a : AIState) (idx : Nat) (a2 : AIState),
        safeIdxStep f c a idx = some a2 → Rmono a a2 := by
      intro c a idx a2 hstp
      simp only [safeIdxStep] at hstp
      have hset : Rmono a
          { a with knowledge :=
              a.knowledge.set idx ((a.knowledge.getD idx default).mark_safe c) } :=
        Rmono_setKnowledge a idx _ (mark_safe_card_le _ c)
      split at hstp
      · exact Rmono_trans _ _ _ hset (ih _ _ _ hstp)
      · cases hstp
        exact hset
    have hmineIdx : ∀ (c : Cell) (a : AIState) (idx : Nat) (a2 : AIState),
        mineIdxStep f c a idx = some a2 → Rmono a a2 := by
      intro c a idx a2 hstp
      simp only [mineIdxStep] at hstp
      have hset : Rmono a
          { a with knowledge :=
              a.knowledge.set idx ((a.knowledge.getD idx default).mark_mine c) } :=
        Rmono_setKnowledge a idx _ (mark_mine_card_le _ c)
      split at hstp
      · exact Rmono_trans _ _ _ hset (ih _ _ _ hstp)
      · cases hstp
        exact hset
    rcases hks : s.known_safes with _ | ns
    · rcases hkm : s.known_mines with _ | nm
      · rw [updateKb_succ_skip f st s hks hkm] at h
        cases h
        exact Rmono_refl st
      · rw [updateKb_succ_mines f st s nm hks hkm] at h
        have hcell : ∀ (a : AIState) (c : Cell) (a2 : AIState),
            mineCellPass f a c = some a2 → Rmono a a2 := by
          intro a c a2 hc
          exact foldOpt_rel Rmono Rmono_refl Rmono_trans _ (hmineIdx c) _ _ _ hc
        refine Rmono_trans _ _ _ ?_
          (foldOpt_rel Rmono Rmono_refl Rmono_trans _ hcell _ _ _ h)
        exact ⟨rfl, rfl, rfl, Finset.Subset.refl _, Finset.subset_union_left, rfl, Nat.le_refl _⟩
    · rw [updateKb_succ_safes f st s ns hks] at h
      have hcell : ∀ (a : AIState) (c : Cell) (a2 : AIState),
          safeCellPass f a c = some a2 → Rmono a a2 := by
        intro a c a2 hc
        exact foldOpt_rel Rmono Rmono_refl Rmono_trans _ (hsafeIdx c) _ _ _ hc
      refine Rmono_trans _ _ _ ?_
        (foldOpt_rel Rmono Rmono_refl Rmono_trans _ hcell _ _ _ h)
      exact ⟨rfl, rfl, rfl, Finset.subset_union_left, Finset.Subset.refl _, rfl, Nat.le_refl _⟩

/-- With fuel exceeding the total cell count of the knowledge base,
`update_kb` cannot run out: every recursion strictly consumes one cell
of the measure. -/
theorem updateKb_some : ∀ (fuel : Nat) (st : AIState) (s : Sentence),
    measureA st < fuel → ∃ st2, updateKb fuel st s = some st2 := by
  intro fuel
  induction fuel with
  | zero =>
    intro st s h
    exact absurd h (Nat.not_lt_zero _)
  | succ f ih =>
    intro st s h
    have hsafeIdx : ∀ (c : Cell) (a : AIState) (idx : Nat), measureA a ≤ measureA st →
        ∃ a2, safeIdxStep f c a idx = some a2 ∧ measureA a2 ≤ measureA st := by
      intro c a idx ha
      simp only [safeIdxStep]
      split
      · rename_i hne
        have hmem : c ∈ (a.knowledge.getD idx default).cells := by
          by_contra hnot
          rw [mark_safe_of_not_mem _ _ hnot] at hne
          exact hne rfl
        have hlt : measureA
            { a with knowledge :=
                a.knowledge.set idx ((a.knowledge.getD idx default).mark_safe c) }
            < measureA a := by
          have hc := mark_safe_card_of_mem _ c hmem
          exact sum_map_set_lt _ idx _ (by omega)
        obtain ⟨a2, ha2⟩ := ih
          { a with knowledge :=
              a.knowledge.set idx ((a.knowledge.getD idx default).mark_safe c) }
          ((a.knowledge.getD idx default).mark_safe c) (by omega)
        refine ⟨a2, ha2, ?_⟩
        have := (updateKb_mono f _ _ _ ha2).2.2.2.2.2.2
        omega
      · exact ⟨_, rfl, le_trans (sum_map_set_le _ idx _ (mark_safe_card_le _ c)) ha⟩
    have hmineIdx : ∀ (c : Cell) (a : AIState) (idx : Nat), measureA a ≤ measureA st →
        ∃ a2, mineIdxStep f c a idx = some a2 ∧ measureA a2 ≤ measureA st := by
      intro c a idx ha
      simp only [mineIdxStep]
      split
      · rename_i hne
        have hmem : c ∈ (a.knowledge.getD idx default).cells := by
          by_contra hnot
          rw [mark_mine_of_not_mem _ _ hnot] at hne
          exact hne rfl
        have hlt : measureA
            { a with knowledge :=
                a.knowledge.set idx ((a.knowledge.getD idx default).mark_mine c) }
            < measureA a := by
          have hc := mark_mine_card_of_mem _ c hmem
          exact sum_map_set_lt _ idx _ (by omega)
        obtain ⟨a2, ha2⟩ := ih
          { a with knowledge :=
              a.knowledge.set idx ((a.knowledge.getD idx default).mark_mine c) }
          ((a.knowledge.getD idx default).mark_mine c) (by omega)
        refine ⟨a2, ha2, ?_⟩
        have := (updateKb_mono f _ _ _ ha2).2.2.2.2.2.2
        omega
      · exact ⟨_, rfl, le_trans (sum_map_set_le _ idx _ (mark_mine_card_le _ c)) ha⟩
    rcases hks : s.known_safes with _ | ns
    · rcases hkm : s.known_mines with _ | nm
      · exact ⟨st, updateKb_succ_skip f st s hks hkm⟩
      · have hcell : ∀ (a : AIState) (c : Cell), measureA a ≤ measureA st →
            ∃ a2, mineCellPass f a c = some a2 ∧ measureA a2 ≤ measureA st := by
          intro a c ha
          exact foldOpt_some (fun x => measureA x ≤ measureA st) _
            (fun x idx hx => hmineIdx c x idx hx) _ a ha
        obtain ⟨st2, h2, _⟩ := foldOpt_some (fun x => measureA x ≤ measureA st)
          (mineCellPass f) (fun x c hx => hcell x c hx) (sortCells nm)
          { st with mines := st.mines ∪ nm } (Nat.le_refl _)
        exact ⟨st2, by rw [updateKb_succ_mines f st s nm hks hkm]; exact h2⟩
    · have hcell : ∀ (a : AIState) (c : Cell), measureA a ≤ measureA st →
          ∃ a2, safeCellPass f a c = some a2 ∧ measureA a2 ≤ measureA st := by
        intro a c ha
        exact foldOpt_some (fun x => measureA x ≤ measureA st) _
          (fun x idx hx => hsafeIdx c x idx hx) _ a ha
      obtain ⟨st2, h2, _⟩ := foldOpt_some (fun x => measureA x ≤ measureA st)
        (safeCellPass f) (fun x c hx => hcell x c hx) (sortCells ns)
        { st with safes := st.safes ∪ ns } (Nat.le_refl _)
      exact ⟨st2, by rw [updateKb_succ_safes f st s ns hks]; exact h2⟩

/-- Each `subsets` comparison is an `Rmono` step. -/
theorem subsetsStep_mono (fuel subIdx : Nat) (st : AIState) (idx : Nat) (st2 : AIState)
    (h : subsetsStep fuel subIdx st idx = some st2) : Rmono st st2 := by
  simp only [subsetsStep] at h
  split at h
  · exact updateKb_mono _ _ _ _ h
  · split at h
    · exact updateKb_mono _ _ _ _ h
    · cases h
      exact Rmono_refl st

/-- A whole `subsets` pass is an `Rmono` step. -/
theorem subsetsPass_mono (fuel : Nat) (st : AIState) (subIdx : Nat) (st2 : AIState)
    (h : subsetsPass fuel st subIdx = some st2) : Rmono st st2 :=
  foldOpt_rel Rmono Rmono_refl Rmono_trans _ (subsetsStep_mono fuel subIdx) _ _ _ h

/-- A `subsets` pass cannot run out of fuel if the fuel exceeds the
total cell count. -/
theorem subsetsPass_some (fuel : Nat) (st : AIState) (subIdx : Nat)
    (h : measureA st < fuel) : ∃ st2, subsetsPass fuel st subIdx = some st2 := by
  have hstep : ∀ (a : AIState) (idx : Nat), measureA a < fuel →
      ∃ a2, subsetsStep fuel subIdx a idx = some a2 ∧ measureA a2 < fuel := by
    intro a idx ha
    simp only [subsetsStep]
    split
    · obtain ⟨a2, ha2⟩ := updateKb_some fuel a
        ⟨(a.knowledge.getD subIdx default).cells \ (a.knowledge.getD idx default).cells,
          (a.knowledge.getD subIdx default).count - (a.knowledge.getD idx default).count⟩ ha
      refine ⟨a2, ha2, ?_⟩
      have := (updateKb_mono fuel _ _ _ ha2).2.2.2.2.2.2
      omega
    · split
      · obtain ⟨a2, ha2⟩ := updateKb_some fuel a
          ⟨(a.knowledge.getD idx default).cells \ (a.knowledge.getD subIdx default).cells,
            (a.knowledge.getD idx default).count - (a.knowledge.getD subIdx default).count⟩ ha
        refine ⟨a2, ha2, ?_⟩
        have := (updateKb_mono fuel _ _ _ ha2).2.2.2.2.2.2
        omega
      · exact ⟨a, rfl, ha⟩
  obtain ⟨st2, h2, _⟩ := foldOpt_some (fun x => measureA x < fuel)
    (subsetsStep fuel subIdx) hstep (List.range st.knowledge.length) st h
  exact ⟨st2, h2⟩

/-! ### Bounds on the observation sentence -/

theorem ifSingleton_length_le (P : Prop) [Decidable P] (a : Cell) :
    (if P then [a] else []).length ≤ 1 := by
  split <;> simp

theorem findNeighbors_length_le (h w : Nat) (c : Cell) :
    (findNeighbors h w c).length ≤ 8 := by
  unfold findNeighbors
  simp only [List.length_append]
  have e1 := ifSingleton_length_le (1 ≤ c.2) (c.1 - 1, c.2 - 1)
  have e2 := ifSingleton_length_le (c.2 < w) (c.1 - 1, c.2)
  have e3 := ifSingleton_length_le (c.2 + 1 < w) (c.1 - 1, c.2 + 1)
  have e4 := ifSingleton_length_le (1 ≤ c.2) (c.1 + 1, c.2 - 1)
  have e5 := ifSingleton_length_le (c.2 < w) (c.1 + 1, c.2)
  have e6 := ifSingleton_length_le (c.2 + 1 < w) (c.1 + 1, c.2 + 1)
  have e7 := ifSingleton_length_le (1 ≤ c.2) (c.1, c.2 - 1)
  have e8 := ifSingleton_length_le (c.2 + 1 < w) (c.1, c.2 + 1)
  have f1 : (if 1 ≤ c.1 then
      (if 1 ≤ c.2 then [(c.1 - 1, c.2 - 1)] else []) ++
      (if c.2 < w then [(c.1 - 1, c.2)] else []) ++
      (if c.2 + 1 < w then [(c.1 - 1, c.2 + 1)] else [])
    else []).length ≤ 3 := by
    split
    · simp only [List.length_append]; omega
    · simp
  have f2 : (if c.1 + 1 < h then
      (if 1 ≤ c.2 then [(c.1 + 1, c.2 - 1)] else []) ++
      (if c.2 < w then [(c.1 + 1, c.2)] else []) ++
      (if c.2 + 1 < w then [(c.1 + 1, c.2 + 1)] else [])
    else []).length ≤ 3 := by
    split
    · simp only [List.length_append]; omega
    · simp
  omega

theorem newSentence_card_le (st : AIState) (c : Cell) (n : Int) :
    (newSentence st c n).cells.card ≤ 8 := by
  unfold newSentence
  refine le_trans (List.toFinset_card_le _) (le_trans (List.length_filter_le _ _) ?_)
  exact findNeighbors_length_le _ _ _

/-! ### Measure bookkeeping across the steps of `add_knowledge` -/

theorem measureA_observeMove (st : AIState) (c : Cell) :
    measureA (observeMove st c) = measureA st := rfl

theorem measureA_markSafe_le (st : AIState) (c : Cell) :
    measureA (aiMarkSafe st c) ≤ measureA st := by
  unfold measureA aiMarkSafe
  simp only [List.map_map]
  exact List.sum_le_sum fun s _ => mark_safe_card_le s c

theorem measureA_insertSentence (st : AIState) (s : Sentence) :
    measureA (insertSentence st s) = measureA st + s.cells.card := by
  unfold measureA insertSentence
  simp

/-- With fuel `measureA st + 9`, `add_knowledge` always returns a state:
the appended observation sentence has at most 8 cells, and every
recursive step of the cascade consumes at least one cell of the
measure. -/
theorem addKnowledge_some (st : AIState) (c : Cell) (n : Int) :
    ∃ st2, addKnowledge (measureA st + 9) st c n = some st2 := by
  have hm2 : measureA (aiMarkSafe (observeMove st c) c) ≤ measureA st :=
    measureA_markSafe_le (observeMove st c) c
  have hm3 : measureA (insertSentence (aiMarkSafe (observeMove st c) c)
      (newSentence (aiMarkSafe (observeMove st c) c) c n)) < measureA st + 9 := by
    rw [measureA_insertSentence]
    have := newSentence_card_le (aiMarkSafe (observeMove st c) c) c n
    omega
  obtain ⟨st4, h4⟩ := updateKb_some (measureA st + 9)
    (insertSentence (aiMarkSafe (observeMove st c) c)
      (newSentence (aiMarkSafe (observeMove st c) c) c n))
    (newSentence (aiMarkSafe (observeMove st c) c) c n) hm3
  have hm4 : measureA st4 < measureA st + 9 := by
    have := (updateKb_mono _ _ _ _ h4).2.2.2.2.2.2
    omega
  obtain ⟨st5, h5⟩ := subsetsPass_some (measureA st + 9) st4
    ((insertSentence (aiMarkSafe (observeMove st c) c)
      (newSentence (aiMarkSafe (observeMove st c) c) c n)).knowledge.length - 1) hm4
  refine ⟨pruneKnowledge (sweepSafes st5), ?_⟩
  simp only [addKnowledge, h4, h5]

/-! ### The final sweep and prune of `add_knowledge` -/

theorem sweep_foldl_subset (l : List Sentence) : ∀ acc : Finset Cell,
    acc ⊆ l.foldl (fun acc s =>
      match s.known_safes with
      | some ks => acc ∪ ks
      | none => acc) acc := by
  induction l with
  | nil => intro acc; exact Finset.Subset.refl _
  | cons b l ih =>
    intro acc
    simp only [List.foldl_cons]
    refine Finset.Subset.trans ?_ (ih _)
    rcases b.known_safes with _ | ks
    · exact Finset.Subset.refl _
    · exact Finset.subset_union_left

theorem sweepSafes_moves (st : AIState) : (sweepSafes st).moves_made = st.moves_made := rfl

theorem sweepSafes_mines (st : AIState) : (sweepSafes st).mines = st.mines := rfl

theorem sweepSafes_safes (st : AIState) : st.safes ⊆ (sweepSafes st).safes :=
  sweep_foldl_subset st.knowledge st.safes

theorem pruneKnowledge_moves (st : AIState) : (pruneKnowledge st).moves_made = st.moves_made := rfl

theorem pruneKnowledge_mines (st : AIState) : (pruneKnowledge st).mines = st.mines := rfl

theorem pruneKnowledge_safes (st : AIState) : (pruneKnowledge st).safes = st.safes := rfl

/-- What one successful `add_knowledge` does to the three global sets:
the observed cell is recorded in `moves_made` and in `safes`, and no
cell ever leaves `safes` or `mines`. -/
theorem addKnowledge_parts (fuel : Nat) (st : AIState) (c : Cell) (n : Int) (st2 : AIState)
    (h : addKnowledge fuel st c n = some st2) :
    st2.moves_made = insert c st.moves_made
      ∧ insert c st.safes ⊆ st2.safes
      ∧ st.mines ⊆ st2.mines := by
  simp only [addKnowledge] at h
  rcases h4 : updateKb fuel
      (insertSentence (aiMarkSafe (observeMove st c) c)
        (newSentence (aiMarkSafe (observeMove st c) c) c n))
      (newSentence (aiMarkSafe (observeMove st c) c) c n) with _ | st4
  · rw [h4] at h; cases h
  · rw [h4] at h
    dsimp only at h
    rcases h5 : subsetsPass fuel st4
        ((insertSentence (aiMarkSafe (observeMove st c) c)
          (newSentence (aiMarkSafe (observeMove st c) c) c n)).knowledge.length - 1) with _ | st5
    · rw [h5] at h; cases h
    · rw [h5] at h
      dsimp only at h
      cases h
      obtain ⟨_, _, m4, s4, n4, _, _⟩ := updateKb_mono _ _ _ _ h4
      obtain ⟨_, _, m5, s5, n5, _, _⟩ := subsetsPass_mono _ _ _ _ h5
      refine ⟨?_, ?_, ?_⟩
      · rw [pruneKnowledge_moves, sweepSafes_moves, ← m5, ← m4]
        rfl
      · rw [pruneKnowledge_safes]
        refine Finset.Subset.trans ?_ (sweepSafes_safes st5)
        exact Finset.Subset.trans (Finset.Subset.trans (Finset.Subset.refl _) s4) s5
      · rw [pruneKnowledge_mines, sweepSafes_mines]
        exact Finset.Subset.trans n4 n5

/-! ### The implicit invariant `moves_made ⊆ safes` -/

theorem applyOp_moves_sub (st : AIState) (op : AgentOp) (st2 : AIState)
    (h : applyOp st op = some st2) (hsub : st.moves_made ⊆ st.safes) :
    st2.moves_made ⊆ st2.safes := by
  cases op with
  | addK c n =>
    simp only [applyOp] at h
    obtain ⟨hm, hs, _⟩ := addKnowledge_parts _ _ _ _ _ h
    rw [hm]
    exact Finset.Subset.trans (Finset.insert_subset_insert _ hsub) hs
  | markMineOp c =>
    simp only [applyOp] at h
    cases h
    exact hsub
  | markSafeOp c =>
    simp only [applyOp] at h
    cases h
    exact Finset.Subset.trans hsub (Finset.subset_insert _ _)

theorem runOps_moves_sub : ∀ (ops : List AgentOp) (st st2 : AIState),
    runOps st ops = some st2 → st.moves_made ⊆ st.safes → st2.moves_made ⊆ st2.safes := by
  intro ops
  induction ops with
  | nil =>
    intro st st2 h hs
    simp only [runOps] at h
    cases h
    exact hs
  | cons op rest ih =>
    intro st st2 h hs
    simp only [runOps] at h
    rcases hop : applyOp st op with _ | st1
    · rw [hop] at h; cases h
    · rw [hop] at h
      exact ih st1 st2 h (applyOp_moves_sub st op st1 hop hs)

/-! ### Mine placement (`Minesweeper.__init__`) -/

theorem placeRun_succ (m : Nat) (s : Nat → Cell) (f k : Nat) (mines : Finset Cell) :
    placeRun m s (f + 1) k mines =
      if mines.card = m then some mines
      else if s k ∈ mines then placeRun m s f (k + 1) mines
      else placeRun m s f (k + 1) (insert (s k) mines) := rfl

/-- When more mines are requested than the board has cells, the
placement loop never exits: its guard `len(mines) != m` stays true
forever because the mine set lives inside the board. -/
theorem placeRun_none (h w m : Nat) (s : Nat → Cell)
    (hb : ∀ k, (s k).1 < h ∧ (s k).2 < w) (hm : h * w < m) :
    ∀ (fuel k : Nat) (mines : Finset Cell),
      mines ⊆ Finset.range h ×ˢ Finset.range w → placeRun m s fuel k mines = none := by
  intro fuel
  induction fuel with
  | zero => intro k mines hsub; rfl
  | succ f ih =>
    intro k mines hsub
    have hcard : mines.card ≤ h * w := by
      have h1 := Finset.card_le_card hsub
      rwa [Finset.card_product, Finset.card_range, Finset.card_range] at h1
    rw [placeRun_succ, if_neg (by omega)]
    split
    · exact ih (k + 1) mines hsub
    · refine ih (k + 1) _ (Finset.insert_subset ?_ hsub)
      exact Finset.mem_product.mpr
        ⟨Finset.mem_range.mpr (hb k).1, Finset.mem_range.mpr (hb k).2⟩

/-- Any successful placement has exactly `m` (distinct) mines, all on
the board. -/
theorem placeRun_some_inv (h w m : Nat) (s : Nat → Cell)
    (hb : ∀ k, (s k).1 < h ∧ (s k).2 < w) :
    ∀ (fuel k : Nat) (mines r : Finset Cell),
      mines ⊆ Finset.range h ×ˢ Finset.range w →
      placeRun m s fuel k mines = some r →
      r.card = m ∧ r ⊆ Finset.range h ×ˢ Finset.range w := by
  intro fuel
  induction fuel with
  | zero => intro k mines r _ hr; cases hr
  | succ f ih =>
    intro k mines r hsub hr
    rw [placeRun_succ] at hr
    split at hr
    · cases hr
      exact ⟨by assumption, hsub⟩
    · split at hr
      · exact ih (k + 1) mines r hsub hr
      · refine ih (k + 1) _ r (Finset.insert_subset ?_ hsub) hr
        exact Finset.mem_product.mpr
          ⟨Finset.mem_range.mpr (hb k).1, Finset.mem_range.mpr (hb k).2⟩

theorem rowMajor_bounds (h w : Nat) (hh : 0 < h) (hw : 0 < w) :
    ∀ k, (rowMajor h w k).1 < h ∧ (rowMajor h w k).2 < w := by
  intro k
  exact ⟨Nat.mod_lt _ hh, Nat.mod_lt _ hw⟩

theorem rowMajor_injOn (h w : Nat) (hw : 0 < w) :
    ∀ i j, i < h * w → j < h * w → rowMajor h w i = rowMajor h w j → i = j := by
  intro i j hi hj heq
  unfold rowMajor at heq
  have hdi : i / w < h := (Nat.div_lt_iff_lt_mul hw).mpr (by omega)
  have hdj : j / w < h := (Nat.div_lt_iff_lt_mul hw).mpr (by omega)
  rw [Nat.mod_eq_of_lt hdi, Nat.mod_eq_of_lt hdj] at heq
  have e1 : i / w = j / w := congrArg Prod.fst heq
  have e2 : i % w = j % w := congrArg Prod.snd heq
  have e3 : w * (i / w) = w * (j / w) := by rw [e1]
  have m1 := Nat.div_add_mod i w
  have m2 := Nat.div_add_mod j w
  omega

theorem placeRun_rowMajor_succeeds (h w m : Nat) (_hh : 0 < h) (hw : 0 < w) (hm : m ≤ h * w) :
    ∀ (d j : Nat), j + d = m →
      placeRun m (rowMajor h w) (d + 1) j ((Finset.range j).image (rowMajor h w))
        = some ((Finset.range m).image (rowMajor h w)) := by
  have hinj : ∀ j, j ≤ m → Set.InjOn (rowMajor h w) (Finset.range j) := by
    intro j hj a ha b hb hab
    rw [Finset.coe_range, Set.mem_Iio] at ha hb
    exact rowMajor_injOn h w hw a b (by omega) (by omega) hab
  intro d
  induction d with
  | zero =>
    intro j hj
    have hj0 : j = m := by omega
    subst hj0
    rw [placeRun_succ, if_pos]
    rw [Finset.card_image_of_injOn (hinj j (by omega)), Finset.card_range]
  | succ d ih =>
    intro j hj
    have hcard : ((Finset.range j).image (rowMajor h w)).card = j := by
      rw [Finset.card_image_of_injOn (hinj j (by omega)), Finset.card_range]
    rw [placeRun_succ, if_neg (by omega)]
    have hnot : rowMajor h w j ∉ (Finset.range j).image (rowMajor h w) := by
      intro hmem
      obtain ⟨i, hi, hieq⟩ := Finset.mem_image.mp hmem
      rw [Finset.mem_range] at hi
      have := rowMajor_injOn h w hw i j (by omega) (by omega) hieq
      omega
    rw [if_neg hnot]
    have himg : insert (rowMajor h w j) ((Finset.range j).image (rowMajor h w))
        = (Finset.range (j + 1)).image (rowMajor h w) := by
      rw [Finset.range_succ, Finset.image_insert]
    rw [himg]
    exact ih (j + 1) (by omega)

theorem placement_terminates_rowMajor (h w m : Nat) (hh : 0 < h) (hw : 0 < w)
    (hm : m ≤ h * w) : PlacementTerminates m (rowMajor h w) := by
  refine ⟨m + 1, (Finset.range m).image (rowMajor h w), ?_⟩
  have hr := placeRun_rowMajor_succeeds h w m hh hw hm m 0 (by omega)
  rw [Finset.range_zero, Finset.image_empty] at hr
  exact hr

/-! ### The two move-selection loops -/

theorem randomLoop_mem (st : AIState) (s : Nat → Cell) :
    ∀ (fuel k : Nat) (c : Cell), randomLoop st s fuel k = some c →
      c ∉ st.mines ∧ c ∉ st.moves_made := by
  intro fuel
  induction fuel with
  | zero => intro k c h; cases h
  | succ f ih =>
    intro k c h
    simp only [randomLoop] at h
    split at h
    · cases h
      assumption
    · exact ih (k + 1) c h

theorem randomLoop_finds (st : AIState) (s : Nat → Cell) :
    ∀ (fuel k : Nat),
      (∃ j, j < fuel ∧ s (k + j) ∉ st.mines ∧ s (k + j) ∉ st.moves_made) →
      ∃ c, randomLoop st s fuel k = some c := by
  intro fuel
  induction fuel with
  | zero =>
    rintro k ⟨j, hj, _⟩
    omega
  | succ f ih =>
    rintro k ⟨j, hj, h1, h2⟩
    simp only [randomLoop]
    split
    · exact ⟨s k, rfl⟩
    · rename_i hguard
      cases j with
      | zero =>
        rw [Nat.add_zero] at h1 h2
        exact absurd ⟨h1, h2⟩ hguard
      | succ j0 =>
        refine ih (k + 1) ⟨j0, by omega, ?_, ?_⟩
        · have e : k + 1 + j0 = k + (j0 + 1) := by omega
          rw [e]; exact h1
        · have e : k + 1 + j0 = k + (j0 + 1) := by omega
          rw [e]; exact h2

theorem safeLoop_mem (st : AIState) (s : Nat → Cell) :
    ∀ (fuel k : Nat) (c : Cell), safeLoop st s fuel k = some c →
      c ∉ st.moves_made ∧ ∃ j, c = s j := by
  intro fuel
  induction fuel with
  | zero => intro k c h; cases h
  | succ f ih =>
    intro k c h
    simp only [safeLoop] at h
    split at h
    · cases h
      exact ⟨by assumption, k, rfl⟩
    · exact ih (k + 1) c h

/-! ### The claims -/

/-- Claim C1: subset-derivation correctness.  On a 1×4 board the agent's
knowledge base holds the constraint `{(0,0),(0,2),(0,3)} = 1`; the
observation `((0,1), 1)` inserts the second constraint
`{(0,0),(0,2)} = 1` as a separate fact, and once the propagation and
subset-derivation steps of `add_knowledge` complete, the never-observed
cell `(0,3)` is a member of `safes`. -/
theorem c1_subset_derivation :
    (addKnowledge 10 ⟨1, 4, ∅, ∅, ∅, [⟨{(0,0),(0,2),(0,3)}, 1⟩]⟩ (0,1) 1).isSome
    ∧ (0,3) ∈ ((addKnowledge 10 ⟨1, 4, ∅, ∅, ∅, [⟨{(0,0),(0,2),(0,3)}, 1⟩]⟩ (0,1) 1).getD
        (initAI 1 4)).safes := by decide

/-- Claim C2: the derived constraint `{(0,2),(1,2)} = 1` (set difference
of the live constraint `{(0,0),(0,1),(0,2),(1,2)} = 2` and the new
observation sentence `{(0,0),(0,1)} = 1`) yields no immediate facts, so
by the claim it should be recursively subset-derived and inserted into
`knowledge`; the code instead sends every derived sentence through fact
propagation (the bound-method guard is always truthy), which is a no-op
here, and never inserts it: the final knowledge base holds exactly the
parent and the observation sentence, and no new facts are learned. -/
theorem c2_inferred_sentence_dropped :
    (addKnowledge 20 ⟨2, 3, ∅, {(1,1)}, ∅, [⟨{(0,0),(0,1),(0,2),(1,2)}, 2⟩]⟩ (1,0) 1).isSome
    ∧ ((addKnowledge 20 ⟨2, 3, ∅, {(1,1)}, ∅, [⟨{(0,0),(0,1),(0,2),(1,2)}, 2⟩]⟩ (1,0) 1).getD
        (initAI 2 3)).knowledge
        = [⟨{(0,0),(0,1),(0,2),(1,2)}, 2⟩, ⟨{(0,0),(0,1)}, 1⟩]
    ∧ ((addKnowledge 20 ⟨2, 3, ∅, {(1,1)}, ∅, [⟨{(0,0),(0,1),(0,2),(1,2)}, 2⟩]⟩ (1,0) 1).getD
        (initAI 2 3)).safes = {(1,1), (1,0)}
    ∧ ((addKnowledge 20 ⟨2, 3, ∅, {(1,1)}, ∅, [⟨{(0,0),(0,1),(0,2),(1,2)}, 2⟩]⟩ (1,0) 1).getD
        (initAI 2 3)).mines = ∅ := by decide

/-- Claim C3, counterexample: on a 1×1 board asked for 2 mines (the only
possible draw stream is the constant `(0,0)`), the construction loop
never exits — construction neither fails immediately nor terminates. -/
theorem c3_counterexample : ¬ PlacementTerminates 2 (fun _ => (0,0)) := by
  rintro ⟨fuel, r, hr⟩
  unfold placeMines at hr
  rw [placeRun_none 1 1 2 (fun _ => (0,0)) (fun _ => ⟨Nat.one_pos, Nat.one_pos⟩) (by decide)
    fuel 0 ∅ (Finset.empty_subset _)] at hr
  cases hr

/-- Claim C3, amended: for positive board dimensions and in-bounds draw
streams, construction with `m > h*w` never terminates (no error is
surfaced); every terminating construction places exactly `m` distinct
mines, all on the board; and for `m ≤ h*w` some draw stream (row-major
enumeration) makes the construction terminate. -/
theorem c3_placement_behavior (h w m : Nat) (s : Nat → Cell) (hh : 0 < h) (hw : 0 < w)
    (hb : ∀ k, (s k).1 < h ∧ (s k).2 < w) :
    (h * w < m → ¬ PlacementTerminates m s)
    ∧ (∀ fuel r, placeMines m s fuel = some r → r.card = m ∧ ∀ c ∈ r, c.1 < h ∧ c.2 < w)
    ∧ (m ≤ h * w → PlacementTerminates m (rowMajor h w)) := by
  refine ⟨?_, ?_, ?_⟩
  · rintro hm ⟨fuel, r, hr⟩
    unfold placeMines at hr
    rw [placeRun_none h w m s hb hm fuel 0 ∅ (Finset.empty_subset _)] at hr
    cases hr
  · intro fuel r hr
    unfold placeMines at hr
    obtain ⟨hcard, hsub⟩ := placeRun_some_inv h w m s hb fuel 0 ∅ r (Finset.empty_subset _) hr
    refine ⟨hcard, fun c hc => ?_⟩
    obtain ⟨h1, h2⟩ := Finset.mem_product.mp (hsub hc)
    exact ⟨Finset.mem_range.mp h1, Finset.mem_range.mp h2⟩
  · intro hm
    exact placement_terminates_rowMajor h w m hh hw hm

/-- Witness for `c3_placement_behavior` at `h = w = 2` with the
row-major stream: placing 5 mines on the 2×2 board never terminates,
and placing 2 mines can terminate. -/
theorem c3_witness :
    ¬ PlacementTerminates 5 (rowMajor 2 2) ∧ PlacementTerminates 2 (rowMajor 2 2) :=
  ⟨(c3_placement_behavior 2 2 5 (rowMajor 2 2) (by decide) (by decide)
      (rowMajor_bounds 2 2 (by decide) (by decide))).1 (by decide),
   (c3_placement_behavior 2 2 2 (rowMajor 2 2) (by decide) (by decide)
      (rowMajor_bounds 2 2 (by decide) (by decide))).2.2 (by decide)⟩

/-- Claim C4, counterexample: with exactly one mine known — and the
board's total mine count equal to 1, so the claim demands that no move
be returned — `make_random_move` still returns a fresh cell, because its
guard compares the known-mine count against the literal 8, not against
the board's mine count. -/
theorem c4_counterexample :
    makeRandomMove ⟨2, 2, ∅, ∅, {(0,1)}, []⟩ (fun _ => (0,0)) 1 = some (0,0)
    ∧ (⟨2, 2, ∅, ∅, {(0,1)}, []⟩ : AIState).mines.card = 1 := by decide

/-- Claim C4, amended: `make_random_move` returns nothing when the number
of known mines equals the literal 8 (the code's hard-coded default mine
count — the agent never sees the board's actual mine count); whenever it
returns a cell, that cell is in neither `mines` nor `moves_made`; and
when the known-mine count differs from 8 it returns a cell as soon as the
draw stream offers an unplayed non-mine cell within the fuel bound. -/
theorem c4_random_move_behavior (st : AIState) (s : Nat → Cell) (fuel : Nat) :
    (st.mines.card = 8 → makeRandomMove st s fuel = none)
    ∧ (∀ c, makeRandomMove st s fuel = some c → c ∉ st.mines ∧ c ∉ st.moves_made)
    ∧ (st.mines.card ≠ 8 →
        (∃ j, j < fuel ∧ s j ∉ st.mines ∧ s j ∉ st.moves_made) →
        ∃ c, makeRandomMove st s fuel = some c) := by
  refine ⟨?_, ?_, ?_⟩
  · intro h8
    unfold makeRandomMove
    rw [if_neg (by omega)]
  · intro c h
    unfold makeRandomMove at h
    split at h
    · exact randomLoop_mem st s fuel 0 c h
    · cases h
  · intro h8 hex
    obtain ⟨j, hj, h1, h2⟩ := hex
    unfold makeRandomMove
    rw [if_pos h8]
    refine randomLoop_finds st s fuel 0 ⟨j, hj, ?_, ?_⟩
    · rw [Nat.zero_add]; exact h1
    · rw [Nat.zero_add]; exact h2

/-- Witness for `c4_random_move_behavior`: an agent with 8 known mines
gets no move; an agent with one known mine gets a move from a stream
offering a fresh cell. -/
theorem c4_witness :
    makeRandomMove ⟨2, 2, ∅, ∅,
      {(0,0),(0,1),(0,2),(0,3),(1,0),(1,1),(1,2),(1,3)}, []⟩ (fun _ => (0,0)) 3 = none
    ∧ ∃ c, makeRandomMove ⟨2, 2, ∅, ∅, {(0,1)}, []⟩ (fun _ => (1,1)) 1 = some c :=
  ⟨(c4_random_move_behavior ⟨2, 2, ∅, ∅,
      {(0,0),(0,1),(0,2),(0,3),(1,0),(1,1),(1,2),(1,3)}, []⟩ (fun _ => (0,0)) 3).1 (by decide),
   (c4_random_move_behavior ⟨2, 2, ∅, ∅, {(0,1)}, []⟩ (fun _ => (1,1)) 1).2.2 (by decide)
     ⟨0, by decide, by decide, by decide⟩⟩

/-- Claim C5, counterexample: in a state where `moves_made ⊄ safes`
(safes = {(0,0)}, moves_made = {(1,1)}), a safe unplayed cell exists but
`make_safe_move` returns nothing, because its guard compares the sizes
`len(safes) > len(moves_made)` instead of testing `safes ⊆ moves_made`. -/
theorem c5_counterexample :
    makeSafeMove ⟨2, 2, {(1,1)}, {(0,0)}, ∅, []⟩ (fun _ => (0,0)) 5 = none
    ∧ (0,0) ∈ (⟨2, 2, {(1,1)}, {(0,0)}, ∅, []⟩ : AIState).safes
    ∧ (0,0) ∉ (⟨2, 2, {(1,1)}, {(0,0)}, ∅, []⟩ : AIState).moves_made := by decide

/-- Claim C5, amended: in every state satisfying the reachable-state
invariant `moves_made ⊆ safes`, `make_safe_move` returns nothing when no
safe unplayed cell exists; any returned cell is a safe unplayed cell
(the draws come from `safes`, as `random.choice(tuple(self.safes))`
does); and when a safe unplayed cell exists, a draw stream proposing it
makes `make_safe_move` return it.  The function reads but never writes
the state, which the embedding reflects by its type. -/
theorem c5_safe_move_behavior (st : AIState) (s : Nat → Cell) (fuel : Nat)
    (hsub : st.moves_made ⊆ st.safes) :
    ((∀ c ∈ st.safes, c ∈ st.moves_made) → makeSafeMove st s fuel = none)
    ∧ ((∀ k, s k ∈ st.safes) → ∀ c, makeSafeMove st s fuel = some c →
        c ∈ st.safes ∧ c ∉ st.moves_made)
    ∧ (∀ c0 ∈ st.safes, c0 ∉ st.moves_made →
        makeSafeMove st (fun _ => c0) (fuel + 1) = some c0) := by
  refine ⟨?_, ?_, ?_⟩
  · intro hall
    have heq : st.safes = st.moves_made := Finset.Subset.antisymm hall hsub
    unfold makeSafeMove
    rw [if_neg (by rw [heq]; simp)]
  · intro hstream c h
    unfold makeSafeMove at h
    split at h
    · obtain ⟨hnm, j, hj⟩ := safeLoop_mem st s fuel 0 c h
      exact ⟨hj ▸ hstream j, hnm⟩
    · cases h
  · intro c0 hc0 hnm
    unfold makeSafeMove
    rw [if_pos ⟨Finset.ne_empty_of_mem hc0,
      Finset.card_lt_card ((Finset.ssubset_iff_of_subset hsub).mpr ⟨c0, hc0, hnm⟩)⟩]
    simp only [safeLoop]
    rw [if_pos hnm]

/-- Witness for `c5_safe_move_behavior`: a fully-played agent gets no
move; an agent with one unplayed safe cell gets exactly that cell. -/
theorem c5_witness :
    makeSafeMove ⟨2, 2, {(0,0)}, {(0,0)}, ∅, []⟩ (fun _ => (0,0)) 4 = none
    ∧ makeSafeMove ⟨2, 2, ∅, {(0,1)}, ∅, []⟩ (fun _ => (0,1)) 1 = some (0,1) :=
  ⟨(c5_safe_move_behavior ⟨2, 2, {(0,0)}, {(0,0)}, ∅, []⟩ (fun _ => (0,0)) 4
      (by decide)).1 (by decide),
   (c5_safe_move_behavior ⟨2, 2, ∅, {(0,1)}, ∅, []⟩ (fun _ => (0,1)) 0
      (by decide)).2.2 (0,1) (by decide) (by decide)⟩

/-- Claim C6, counterexample: the public sequence `mark_safe((0,0))`
then `mark_mine((0,0))` on a fresh agent leaves `(0,0)` in both `safes`
and `mines` — the two sets are not disjoint after a public call
returns. -/
theorem c6_counterexample :
    (runOps (initAI 2 2) [AgentOp.markSafeOp (0,0), AgentOp.markMineOp (0,0)]).isSome
    ∧ ((runOps (initAI 2 2) [AgentOp.markSafeOp (0,0), AgentOp.markMineOp (0,0)]).getD
        (initAI 2 2)).safes
      ∩ ((runOps (initAI 2 2) [AgentOp.markSafeOp (0,0), AgentOp.markMineOp (0,0)]).getD
        (initAI 2 2)).mines ≠ ∅ := by decide

/-- Claim C6, amended: `safes ∩ mines = ∅` holds initially and is
preserved by `mark_safe`/`mark_mine` exactly when the marked cell is not
already in the opposite set, but no operation enforces this: marking a
cell in the opposite set, or an `add_knowledge` observation of a cell
currently believed to be a mine, leaves the two sets overlapping. -/
theorem c6_disjoint_conditional :
    (∀ h w : Nat, (initAI h w).safes ∩ (initAI h w).mines = ∅)
    ∧ (∀ (st : AIState) (c : Cell), st.safes ∩ st.mines = ∅ → c ∉ st.mines →
        (aiMarkSafe st c).safes ∩ (aiMarkSafe st c).mines = ∅)
    ∧ (∀ (st : AIState) (c : Cell), st.safes ∩ st.mines = ∅ → c ∉ st.safes →
        (aiMarkMine st c).safes ∩ (aiMarkMine st c).mines = ∅)
    ∧ (∀ (fuel : Nat) (st : AIState) (c : Cell) (n : Int) (st2 : AIState),
        addKnowledge fuel st c n = some st2 → c ∈ st.mines →
        (st2.safes ∩ st2.mines).Nonempty) := by
  refine ⟨?_, ?_, ?_, ?_⟩
  · intro h w
    exact Finset.empty_inter _
  · intro st c hd hc
    show insert c st.safes ∩ st.mines = ∅
    rw [Finset.insert_inter_of_not_mem hc, hd]
  · intro st c hd hc
    show st.safes ∩ insert c st.mines = ∅
    rw [Finset.inter_insert_of_not_mem hc, hd]
  · intro fuel st c n st2 h hc
    obtain ⟨_, hs, hm⟩ := addKnowledge_parts fuel st c n st2 h
    exact ⟨c, Finset.mem_inter.mpr ⟨hs (Finset.mem_insert_self c _), hm hc⟩⟩

/-- Witness for `c6_disjoint_conditional`: the two conditional
preservations at fresh agents, and the add-knowledge overlap at an agent
that believes `(0,0)` is a mine and then observes it. -/
theorem c6_witness :
    (aiMarkSafe (initAI 2 2) (0,1)).safes ∩ (aiMarkSafe (initAI 2 2) (0,1)).mines = ∅
    ∧ (aiMarkMine (initAI 2 2) (1,0)).safes ∩ (aiMarkMine (initAI 2 2) (1,0)).mines = ∅
    ∧ (((addKnowledge 9 ⟨2, 2, ∅, ∅, {(0,0)}, []⟩ (0,0) 0).getD (initAI 2 2)).safes
        ∩ ((addKnowledge 9 ⟨2, 2, ∅, ∅, {(0,0)}, []⟩ (0,0) 0).getD (initAI 2 2)).mines).Nonempty := by
  refine ⟨c6_disjoint_conditional.2.1 (initAI 2 2) (0,1) (by decide) (by decide),
    c6_disjoint_conditional.2.2.1 (initAI 2 2) (1,0) (by decide) (by decide), ?_⟩
  rcases h : addKnowledge 9 ⟨2, 2, ∅, ∅, {(0,0)}, []⟩ (0,0) 0 with _ | st2
  · exact absurd h (by decide)
  · exact c6_disjoint_conditional.2.2.2 9 ⟨2, 2, ∅, ∅, {(0,0)}, []⟩ (0,0) 0 st2 h (by decide)

/-- Claim C7, counterexample: after the public sequence
`add_knowledge((0,0), 1); mark_mine((0,1)); mark_mine((1,0))` on a fresh
2×2 agent, the surviving live constraint is `{(1,1)}` with count `-1`,
violating `0 ≤ count`. -/
theorem c7_counterexample :
    (runOps (initAI 2 2)
      [AgentOp.addK (0,0) 1, AgentOp.markMineOp (0,1), AgentOp.markMineOp (1,0)]).isSome
    ∧ ∃ s ∈ ((runOps (initAI 2 2)
        [AgentOp.addK (0,0) 1, AgentOp.markMineOp (0,1), AgentOp.markMineOp (1,0)]).getD
        (initAI 2 2)).knowledge, ¬ sentenceInv s := by decide

/-- Claim C7, amended: `0 ≤ count ≤ |cells|` is preserved by
`Sentence.mark_mine` exactly when the marked cell is absent or
`count ≥ 1`, and by `Sentence.mark_safe` exactly when the marked cell is
absent or `count < |cells|`; nothing enforces these side conditions, so
the invariant does not hold across arbitrary public sequences. -/
theorem c7_mark_preserves_inv (s : Sentence) (c : Cell) (hs : sentenceInv s) :
    (c ∉ s.cells → sentenceInv (s.mark_mine c) ∧ sentenceInv (s.mark_safe c))
    ∧ (c ∈ s.cells → 1 ≤ s.count → sentenceInv (s.mark_mine c))
    ∧ (c ∈ s.cells → s.count + 1 ≤ (s.cells.card : Int) → sentenceInv (s.mark_safe c)) := by
  obtain ⟨h0, h1⟩ := hs
  refine ⟨?_, ?_, ?_⟩
  · intro hc
    rw [mark_mine_of_not_mem s c hc, mark_safe_of_not_mem s c hc]
    exact ⟨⟨h0, h1⟩, h0, h1⟩
  · intro hc hcount
    have hcard := Finset.card_erase_add_one hc
    have hcast : ((s.cells.erase c).card : Int) + 1 = (s.cells.card : Int) := by
      exact_mod_cast hcard
    unfold Sentence.mark_mine
    rw [if_pos hc]
    unfold sentenceInv
    dsimp only
    omega
  · intro hc hcount
    have hcard := Finset.card_erase_add_one hc
    have hcast : ((s.cells.erase c).card : Int) + 1 = (s.cells.card : Int) := by
      exact_mod_cast hcard
    unfold Sentence.mark_safe
    rw [if_pos hc]
    unfold sentenceInv
    dsimp only
    omega

/-- Witness for `c7_mark_preserves_inv` on the constraint
`{(0,0),(0,1)} = 1`: marking the contained mine `(0,0)` and the absent
cell `(1,1)` both preserve the invariant. -/
theorem c7_witness :
    sentenceInv (Sentence.mark_mine ⟨{(0,0),(0,1)}, 1⟩ (0,0))
    ∧ sentenceInv (Sentence.mark_safe ⟨{(0,0),(0,1)}, 1⟩ (1,1)) :=
  ⟨(c7_mark_preserves_inv ⟨{(0,0),(0,1)}, 1⟩ (0,0) (by decide)).2.1 (by decide) (by decide),
   ((c7_mark_preserves_inv ⟨{(0,0),(0,1)}, 1⟩ (1,1) (by decide)).1 (by decide)).2⟩

/-- Claim C8, counterexample: `add_knowledge` appends its observation
sentence unconditionally — repeating the observation `((0,0), 1)` on a
fresh 2×2 agent leaves two structurally equal sentences in the knowledge
base and grows its size from 1 to 2, so duplicate insertion is not
skipped. -/
theorem c8_counterexample :
    (runOps (initAI 2 2) [AgentOp.addK (0,0) 1, AgentOp.addK (0,0) 1]).isSome
    ∧ ((runOps (initAI 2 2) [AgentOp.addK (0,0) 1]).getD (initAI 2 2)).knowledge.length = 1
    ∧ ((runOps (initAI 2 2) [AgentOp.addK (0,0) 1, AgentOp.addK (0,0) 1]).getD
        (initAI 2 2)).knowledge.length = 2
    ∧ ((runOps (initAI 2 2) [AgentOp.addK (0,0) 1, AgentOp.addK (0,0) 1]).getD
        (initAI 2 2)).knowledge
      = [⟨{(1,0),(1,1),(0,1)}, 1⟩, ⟨{(1,0),(1,1),(0,1)}, 1⟩] := by decide

/-- Claim C8, amended: re-observing the same cell and count appends a
structurally equal duplicate sentence (the source performs no duplicate
check on insertion), growing the knowledge base by one, while the
derived sets `safes`, `mines` and `moves_made` are unchanged by the
repeat. -/
theorem c8_duplicate_appended :
    ((runOps (initAI 2 2) [AgentOp.addK (0,0) 1, AgentOp.addK (0,0) 1]).getD
        (initAI 2 2)).knowledge
      = ((runOps (initAI 2 2) [AgentOp.addK (0,0) 1]).getD (initAI 2 2)).knowledge
        ++ [⟨{(1,0),(1,1),(0,1)}, 1⟩]
    ∧ ((runOps (initAI 2 2) [AgentOp.addK (0,0) 1, AgentOp.addK (0,0) 1]).getD
        (initAI 2 2)).safes
      = ((runOps (initAI 2 2) [AgentOp.addK (0,0) 1]).getD (initAI 2 2)).safes
    ∧ ((runOps (initAI 2 2) [AgentOp.addK (0,0) 1, AgentOp.addK (0,0) 1]).getD
        (initAI 2 2)).mines
      = ((runOps (initAI 2 2) [AgentOp.addK (0,0) 1]).getD (initAI 2 2)).mines
    ∧ ((runOps (initAI 2 2) [AgentOp.addK (0,0) 1, AgentOp.addK (0,0) 1]).getD
        (initAI 2 2)).moves_made
      = ((runOps (initAI 2 2) [AgentOp.addK (0,0) 1]).getD (initAI 2 2)).moves_made := by
  decide

/-- Claim C9: `add_knowledge` terminates for every agent state and every
observation: fuel `measureA st + 9` — one more than the total number of
cells across the knowledge base after inserting the at-most-8-cell
observation sentence — always suffices for the recursive fact
propagation and subset derivation to finish, because every recursive
call strictly removes one cell from some live constraint. -/
theorem c9_addKnowledge_terminates (st : AIState) (c : Cell) (n : Int) :
    (addKnowledge (measureA st + 9) st c n).isSome := by
  obtain ⟨st2, h⟩ := addKnowledge_some st c n
  rw [h]
  rfl

/-- Claim C10: in every agent state reachable from a fresh agent by any
sequence of public operations, `moves_made ⊆ safes`: the only operation
that grows `moves_made` is `add_knowledge`, which in the same call
inserts the observed cell into `safes`, and no operation removes cells
from `safes`. -/
theorem c10_moves_subset_safes (h w : Nat) (ops : List AgentOp) (st2 : AIState)
    (hrun : runOps (initAI h w) ops = some st2) : st2.moves_made ⊆ st2.safes :=
  runOps_moves_sub ops (initAI h w) st2 hrun (Finset.empty_subset _)

/-- Witness for `c10_moves_subset_safes`: the state reached by one
`add_knowledge((0,0), 1)` call on a fresh 2×2 agent. -/
theorem c10_witness :
    ((runOps (initAI 2 2) [AgentOp.addK (0,0) 1]).getD (initAI 2 2)).moves_made
      ⊆ ((runOps (initAI 2 2) [AgentOp.addK (0,0) 1]).getD (initAI 2 2)).safes := by
  rcases h : runOps (initAI 2 2) [AgentOp.addK (0,0) 1] with _ | st2
  · exact absurd h (by decide)
  · exact c10_moves_subset_safes 2 2 [AgentOp.addK (0,0) 1] st2 h
